import Mathlib

/-!
# godepr: dependency-rule evaluation engine

A shallow embedding of `godepr.go` (the scope matcher, the pattern matcher, the
rule evaluator, the rule-set evaluator and the package loader) together with the
properties its specification states about them.

Modelling conventions.

* A Go `string` is a finite sequence of bytes.  It is modelled by a Lean `String`,
  read as the sequence of its characters `s.data`.  Every string operation the
  program uses (`+`, `==`, `strings.HasPrefix`, `strings.HasSuffix`,
  `strings.TrimSuffix`, `strings.Contains`) only compares elements for equality,
  so each is defined on the underlying sequence.
* A Go slice is a Lean `List`; the `nil` slice and the empty slice are both `[]`.
* A `for _, x := range xs` loop that appends to a slice is a recursive function
  over `xs` that threads the slice built so far.
-/

namespace Godepr

/-! ## The `strings` functions used by the program -/

/-- Go `strings.HasPrefix(s, prefix)`:
`len(s) >= len(prefix) && s[:len(prefix)] == prefix`. -/
def HasPrefix (s pre : String) : Bool :=
  decide (s.data.length ≥ pre.data.length) && (s.data.take pre.data.length == pre.data)

/-- Go `strings.HasSuffix(s, suffix)`:
`len(s) >= len(suffix) && s[len(s)-len(suffix):] == suffix`. -/
def HasSuffix (s suf : String) : Bool :=
  decide (s.data.length ≥ suf.data.length) &&
    (s.data.drop (s.data.length - suf.data.length) == suf.data)

/-- Go `strings.TrimSuffix(s, suffix)`: when `s` ends with `suffix` the result is
`s[:len(s)-len(suffix)]`, otherwise `s` unchanged. -/
def TrimSuffix (s suf : String) : String :=
  if HasSuffix s suf then ⟨s.data.take (s.data.length - suf.data.length)⟩ else s

/-- Search for `sub` at the head of `s` or at the head of one of its tails. -/
def indexFrom (sub : List Char) : List Char → Bool
  | [] => sub == []
  | c :: cs => (sub.length ≤ (c :: cs).length && (c :: cs).take sub.length == sub)
      || indexFrom sub cs

/-- Go `strings.Contains(s, substr)`: `substr` occurs at some offset of `s`. -/
def Contains (s sub : String) : Bool :=
  indexFrom sub.data s.data

/-! ## Data model (`godepr.go`, lines 9-31) -/

/-- Go `type Rule struct`. -/
structure Rule where
  Directory : String
  RuleType : String
  RuleBody : List String
  deriving DecidableEq, Repr

/-- Go `type Package struct`. -/
structure Package where
  ImportPath : String
  Dir : String
  Deps : List String
  Imports : List String
  deriving DecidableEq, Repr

/-- Go `type Violation struct`. -/
structure Violation where
  PackagePath : String
  ImportPath : String
  RuleType : String
  Message : String
  deriving DecidableEq, Repr

/-! ## Scope matcher and pattern matcher (`godepr.go`, lines 92-118) -/

/-- Go `normalizeDirectory`: append "/" unless the directory already ends with it. -/
def normalizeDirectory (dir : String) : String :=
  if !HasSuffix dir "/" then dir ++ "/" else dir

/-- Go `isInDirectory`: normalise `pkgDir`, then test prefix, suffix and substring. -/
def isInDirectory (pkgDir targetDir : String) : Bool :=
  let pkgDir := if !HasSuffix pkgDir "/" then pkgDir ++ "/" else pkgDir
  HasPrefix pkgDir targetDir ||
    HasSuffix pkgDir ("/" ++ TrimSuffix targetDir "/" ++ "/") ||
    Contains pkgDir ("/" ++ TrimSuffix targetDir "/" ++ "/")

/-- Go `matchesPattern`: a trailing "*" makes the pattern a raw string prefix,
otherwise the pattern must equal the import path. -/
def matchesPattern (importPath pattern : String) : Bool :=
  if HasSuffix pattern "*" then
    let pre := TrimSuffix pattern "*"
    HasPrefix importPath pre
  else
    importPath == pattern

/-! ## Rule evaluator (`godepr.go`, lines 33-59) -/

/-- The violation record built at lines 46-51; `fmt.Sprintf` with two `%s` verbs
is the concatenation of the literal pieces and the two arguments. -/
def mkViolation (pkg : Package) (imp : String) (rule : Rule) : Violation :=
  { PackagePath := pkg.ImportPath
    ImportPath := imp
    RuleType := rule.RuleType
    Message := "package " ++ pkg.ImportPath ++ " imports denied dependency " ++ imp }

/-- The innermost loop, lines 44-54: scan the patterns in order, append one violation
at the first pattern that matches and `break`. -/
def patternLoop (pkg : Package) (imp : String) (rule : Rule) :
    List String → List Violation → List Violation
  | [], violations => violations
  | pattern :: rest, violations =>
    if matchesPattern imp pattern then
      violations ++ [mkViolation pkg imp rule]
    else
      patternLoop pkg imp rule rest violations

/-- The loop over `pkg.Imports`, lines 43-55. -/
def importLoop (pkg : Package) (rule : Rule) :
    List String → List Violation → List Violation
  | [], violations => violations
  | imp :: rest, violations =>
    importLoop pkg rule rest (patternLoop pkg imp rule rule.RuleBody violations)

/-- The loop over `packages`, lines 38-56; an out-of-scope package is skipped
by `continue`. -/
def packageLoop (rule : Rule) (targetDir : String) :
    List Package → List Violation → List Violation
  | [], violations => violations
  | pkg :: rest, violations =>
    if !isInDirectory pkg.Dir targetDir then
      packageLoop rule targetDir rest violations
    else
      packageLoop rule targetDir rest (importLoop pkg rule pkg.Imports violations)

/-- Go `CheckDeniedListRule`. -/
def CheckDeniedListRule (packages : List Package) (rule : Rule) : List Violation :=
  let targetDir := normalizeDirectory rule.Directory
  packageLoop rule targetDir packages []

/-! ## Rule-set evaluator (`godepr.go`, lines 61-75) -/

/-- The loop over `rules`, lines 64-72, with the `switch` on `rule.RuleType`. -/
def ruleLoop (packages : List Package) : List Rule → List Violation → List Violation
  | [], allViolations => allViolations
  | rule :: rest, allViolations =>
    if rule.RuleType = "denied-list" then
      ruleLoop packages rest (allViolations ++ CheckDeniedListRule packages rule)
    else
      ruleLoop packages rest allViolations

/-- Go `CheckRules`. -/
def CheckRules (packages : List Package) (rules : List Rule) : List Violation :=
  ruleLoop packages rules []

/-! ## Reference descriptions taken from the specification -/

/-- The scope test `CheckDeniedListRule` applies to a package. -/
def inScope (rule : Rule) (pkg : Package) : Bool :=
  isInDirectory pkg.Dir (normalizeDirectory rule.Directory)

/-- What one import of one package contributes under a rule according to the
specification: one violation when some pattern of the body matches it, nothing
otherwise. -/
def importContribution (rule : Rule) (pkg : Package) (imp : String) : List Violation :=
  if rule.RuleBody.any (fun pattern => matchesPattern imp pattern) then
    [{ PackagePath := pkg.ImportPath
       ImportPath := imp
       RuleType := rule.RuleType
       Message := "package " ++ pkg.ImportPath ++ " imports denied dependency " ++ imp }]
  else
    []

/-- The reference list of the specification for one rule: packages in input order,
only those in scope, each one's imports in order. -/
def referenceViolations (packages : List Package) (rule : Rule) : List Violation :=
  (packages.filter (fun pkg => inScope rule pkg)).flatMap
    (fun pkg => pkg.Imports.flatMap (fun imp => importContribution rule pkg imp))

/-- The reference list of the specification for a rule set: the per-rule results of
the "denied-list" rules, concatenated in rule order. -/
def referenceAll (packages : List Package) (rules : List Rule) : List Violation :=
  rules.flatMap (fun r => if r.RuleType = "denied-list" then CheckDeniedListRule packages r else [])

/-- Total number of imports of the packages that are in scope of a rule. -/
def inScopeImportCount (packages : List Package) (rule : Rule) : Nat :=
  ((packages.filter (fun pkg => inScope rule pkg)).map (fun pkg => pkg.Imports.length)).sum

/-- Split a sequence at every "/": the pieces between consecutive separators, empty
pieces included (what Go `strings.Split(s, "/")` returns). -/
def splitSlash : List Char → List (List Char)
  | [] => [[]]
  | c :: cs =>
    if c = '/' then [] :: splitSlash cs
    else
      match splitSlash cs with
      | [] => [[c]]
      | h :: t => (c :: h) :: t

/-- The "/"-separated components of a path. -/
def components (P : String) : List String :=
  (splitSlash P.data).map String.mk

/-- The scope test with the suffix condition left out: prefix or substring only. -/
def isInDirectoryTwo (pkgDir targetDir : String) : Bool :=
  let pkgDir := if !HasSuffix pkgDir "/" then pkgDir ++ "/" else pkgDir
  HasPrefix pkgDir targetDir ||
    Contains pkgDir ("/" ++ TrimSuffix targetDir "/" ++ "/")

/-- Two packages that agree on every field except possibly `Deps`. -/
def agreeUpToDeps (p q : Package) : Prop :=
  p.ImportPath = q.ImportPath ∧ p.Dir = q.Dir ∧ p.Imports = q.Imports

/-! ## Package loader (`godepr.go`, lines 77-90)

`ParsePackagesJSON` drives a `json.Decoder` of the Go standard library over the
manifest text.  The loop condition `decoder.More()` is modelled from its source in
`encoding/json/stream.go`; what `decoder.Decode(&pkg)` does with one record is left
as a parameter.  The state of the decoder is the input that has not been read yet. -/

/-- Go `encoding/json` `isSpace`: space, tab, carriage return and line feed. -/
def isSpace (c : Char) : Bool :=
  c == ' ' || c == '\t' || c == '\r' || c == '\n'

/-- Go `(*Decoder).peek`: skip white space and report the next byte without reading
it; `none` stands for `io.EOF`. -/
def peek (buf : List Char) : Option Char :=
  (buf.dropWhile isSpace).head?

/-- Go `(*Decoder).More`: `c, err := dec.peek(); return err == nil && c != ']' && c != '}'`. -/
def More (buf : List Char) : Bool :=
  match peek buf with
  | some c => c != ']' && c != '}'
  | none => false

/-- The behaviour of `decoder.Decode(&pkg)` on a fresh `var pkg Package`: from the unread
input it either fails with an error message, or yields the decoded package and the
input left unread, which is shorter because a JSON value has at least one byte. -/
structure Decoder where
  Decode : List Char → Except String (Package × List Char)
  consumes : ∀ buf pkg rest, Decode buf = Except.ok (pkg, rest) → rest.length < buf.length

/-- The loop of lines 81-87.  The result is the pair returned by the function, the
error being `none` for Go `nil`; the outer `none` means that the iteration bound was
reached before the loop ended. -/
def decodeLoop (d : Decoder) :
    Nat → List Char → List Package → Option (List Package × Option String)
  | 0, _, _ => none
  | fuel + 1, buf, packages =>
    if More buf then
      match d.Decode buf with
      | Except.error err => some ([], some ("failed to decode package: " ++ err))
      | Except.ok (pkg, rest) => decodeLoop d fuel rest (packages ++ [pkg])
    else
      some (packages, none)

/-- Go `ParsePackagesJSON`; every successful `Decode` consumes input, so a bound of
one more than the length of the text is never reached. -/
def ParsePackagesJSON (d : Decoder) (jsonData : String) :
    Option (List Package × Option String) :=
  decodeLoop d (jsonData.data.length + 1) jsonData.data []

/-- The records of a manifest: the packages that successive calls of `Decode` yield,
in input order, until `More` reports that nothing is left. -/
inductive Records (d : Decoder) : List Char → List Package → Prop
  | done (buf : List Char) : More buf = false → Records d buf []
  | next (buf rest : List Char) (pkg : Package) (pkgs : List Package) :
      More buf = true → d.Decode buf = Except.ok (pkg, rest) → Records d rest pkgs →
      Records d buf (pkg :: pkgs)

/-- A decoder for examples: the record "x" decodes to a package with empty fields and
every other input is rejected. -/
def sampleDecoder : Decoder where
  Decode := fun buf =>
    match buf.dropWhile isSpace with
    | 'x' :: rest => Except.ok ({ ImportPath := "", Dir := "", Deps := [], Imports := [] }, rest)
    | _ => Except.error "invalid character"
  consumes := by
    intro buf pkg rest h
    have hl := (List.dropWhile_suffix isSpace : buf.dropWhile isSpace <:+ buf).length_le
    dsimp only at h
    split at h
    · rename_i r hr
      rw [hr] at hl
      simp only [Except.ok.injEq, Prod.mk.injEq] at h
      rw [← h.2]
      simp only [List.length_cons] at hl
      omega
    · exact absurd h (by simp)

/-! ## Characterisation of the string functions -/

theorem data_mk_append (s t : String) : (s ++ t).data = s.data ++ t.data :=
  String.data_append s t

theorem HasPrefix_iff_data (s pre : String) :
    HasPrefix s pre = true ↔ pre.data <+: s.data := by
  unfold HasPrefix
  rw [Bool.and_eq_true, decide_eq_true_eq, beq_iff_eq, List.prefix_iff_eq_take]
  constructor
  · rintro ⟨-, h⟩
    exact h.symm
  · intro h
    refine ⟨?_, h.symm⟩
    have := congrArg List.length h
    rw [List.length_take] at this
    omega

theorem HasSuffix_iff_data (s suf : String) :
    HasSuffix s suf = true ↔ suf.data <:+ s.data := by
  unfold HasSuffix
  rw [Bool.and_eq_true, decide_eq_true_eq, beq_iff_eq, List.suffix_iff_eq_drop]
  constructor
  · rintro ⟨-, h⟩
    exact h.symm
  · intro h
    refine ⟨?_, h.symm⟩
    have := congrArg List.length h
    rw [List.length_drop] at this
    omega

theorem indexFrom_iff (sub : List Char) (s : List Char) :
    indexFrom sub s = true ↔ sub <:+: s := by
  induction s with
  | nil =>
    simp [indexFrom]
  | cons c cs ih =>
    rw [indexFrom, Bool.or_eq_true, ih, List.infix_cons_iff, Bool.and_eq_true,
      decide_eq_true_eq, beq_iff_eq, List.prefix_iff_eq_take]
    constructor
    · rintro (⟨-, h⟩ | h)
      · exact Or.inl h.symm
      · exact Or.inr h
    · rintro (h | h)
      · refine Or.inl ⟨?_, h.symm⟩
        have := congrArg List.length h
        rw [List.length_take] at this
        omega
      · exact Or.inr h

theorem Contains_iff_data (s sub : String) :
    Contains s sub = true ↔ sub.data <:+: s.data :=
  indexFrom_iff sub.data s.data

/-- `strings.HasPrefix` decides "`s` starts with `pre`". -/
theorem HasPrefix_iff (s pre : String) :
    HasPrefix s pre = true ↔ ∃ t : String, s = pre ++ t := by
  rw [HasPrefix_iff_data]
  constructor
  · rintro ⟨t, ht⟩
    exact ⟨⟨t⟩, String.ext (by rw [data_mk_append, ht])⟩
  · rintro ⟨t, rfl⟩
    exact ⟨t.data, (data_mk_append _ _).symm⟩

/-- `strings.HasSuffix` decides "`s` ends with `suf`". -/
theorem HasSuffix_iff (s suf : String) :
    HasSuffix s suf = true ↔ ∃ t : String, s = t ++ suf := by
  rw [HasSuffix_iff_data]
  constructor
  · rintro ⟨t, ht⟩
    exact ⟨⟨t⟩, String.ext (by rw [data_mk_append, ht])⟩
  · rintro ⟨t, rfl⟩
    exact ⟨t.data, (data_mk_append _ _).symm⟩

/-- `strings.Contains` decides "`sub` occurs in `s`". -/
theorem Contains_iff (s sub : String) :
    Contains s sub = true ↔ ∃ a b : String, s = a ++ sub ++ b := by
  rw [Contains_iff_data]
  constructor
  · rintro ⟨a, b, h⟩
    exact ⟨⟨a⟩, ⟨b⟩, String.ext (by rw [data_mk_append, data_mk_append, h])⟩
  · rintro ⟨a, b, rfl⟩
    exact ⟨a.data, b.data, by rw [data_mk_append, data_mk_append]⟩

/-- Trimming a suffix that was just appended gives the original string back. -/
theorem TrimSuffix_append (s suf : String) : TrimSuffix (s ++ suf) suf = s := by
  have h : HasSuffix (s ++ suf) suf = true := (HasSuffix_iff _ _).2 ⟨s, rfl⟩
  unfold TrimSuffix
  rw [if_pos h]
  apply String.ext
  simp [data_mk_append]

theorem TrimSuffix_of_not (s suf : String) (h : HasSuffix s suf = false) :
    TrimSuffix s suf = s := by
  unfold TrimSuffix
  simp [h]

/-- The normalised directory is the directory with "/" appended when missing. -/
theorem normalizeDirectory_of_suffix (d : String) (h : HasSuffix d "/" = true) :
    normalizeDirectory d = d := by
  simp [normalizeDirectory, h]

theorem normalizeDirectory_of_not_suffix (d : String) (h : HasSuffix d "/" = false) :
    normalizeDirectory d = d ++ "/" := by
  simp [normalizeDirectory, h]

/-! ## The loops compute the reference lists -/

theorem patternLoop_eq (pkg : Package) (imp : String) (rule : Rule) (pats : List String)
    (acc : List Violation) :
    patternLoop pkg imp rule pats acc =
      acc ++ (if pats.any (fun pattern => matchesPattern imp pattern) then
        [mkViolation pkg imp rule] else []) := by
  induction pats with
  | nil => simp [patternLoop]
  | cons pat rest ih =>
    rw [patternLoop]
    by_cases h : matchesPattern imp pat = true
    · simp [h]
    · simp [h, ih]

theorem patternLoop_contribution (pkg : Package) (imp : String) (rule : Rule)
    (acc : List Violation) :
    patternLoop pkg imp rule rule.RuleBody acc = acc ++ importContribution rule pkg imp := by
  rw [patternLoop_eq]
  rfl

theorem importLoop_eq (pkg : Package) (rule : Rule) (imps : List String)
    (acc : List Violation) :
    importLoop pkg rule imps acc =
      acc ++ imps.flatMap (fun imp => importContribution rule pkg imp) := by
  induction imps generalizing acc with
  | nil => simp [importLoop]
  | cons imp rest ih =>
    rw [importLoop, ih, patternLoop_contribution]
    simp [List.flatMap_cons]

theorem packageLoop_eq (rule : Rule) (pkgs : List Package) (acc : List Violation) :
    packageLoop rule (normalizeDirectory rule.Directory) pkgs acc =
      acc ++ referenceViolations pkgs rule := by
  induction pkgs generalizing acc with
  | nil => simp [packageLoop, referenceViolations]
  | cons pkg rest ih =>
    rw [packageLoop]
    by_cases h : isInDirectory pkg.Dir (normalizeDirectory rule.Directory) = true
    · have hs : inScope rule pkg = true := h
      simp only [h, Bool.not_true, Bool.false_eq_true, if_false]
      rw [ih, importLoop_eq]
      simp [referenceViolations, List.filter_cons, hs, List.flatMap_cons]
    · have hs : ¬ inScope rule pkg = true := h
      simp only [h, Bool.not_eq_true] at h ⊢
      simp only [h, Bool.not_false, if_true]
      rw [ih]
      simp [referenceViolations, List.filter_cons, hs]

theorem CheckDeniedListRule_eq_reference (packages : List Package) (rule : Rule) :
    CheckDeniedListRule packages rule = referenceViolations packages rule := by
  unfold CheckDeniedListRule
  simp only [packageLoop_eq, List.nil_append]

theorem ruleLoop_eq (packages : List Package) (rules : List Rule) (acc : List Violation) :
    ruleLoop packages rules acc = acc ++ referenceAll packages rules := by
  induction rules generalizing acc with
  | nil => simp [ruleLoop, referenceAll]
  | cons r rest ih =>
    rw [ruleLoop]
    by_cases h : r.RuleType = "denied-list"
    · simp [h, ih, referenceAll, List.flatMap_cons]
    · simp [h, ih, referenceAll, List.flatMap_cons]

theorem CheckRules_eq_reference (packages : List Package) (rules : List Rule) :
    CheckRules packages rules = referenceAll packages rules := by
  unfold CheckRules
  simp only [ruleLoop_eq, List.nil_append]

theorem importContribution_length_le (rule : Rule) (pkg : Package) (imp : String) :
    (importContribution rule pkg imp).length ≤ 1 := by
  unfold importContribution
  split <;> simp

theorem imports_bind_length_le (rule : Rule) (pkg : Package) (imps : List String) :
    (imps.flatMap (fun imp => importContribution rule pkg imp)).length ≤ imps.length := by
  induction imps with
  | nil => simp
  | cons imp rest ih =>
    have := importContribution_length_le rule pkg imp
    simp only [List.flatMap_cons, List.length_append, List.length_cons]
    omega

theorem referenceViolations_length_le (packages : List Package) (rule : Rule) :
    (referenceViolations packages rule).length ≤ inScopeImportCount packages rule := by
  unfold referenceViolations inScopeImportCount
  induction packages.filter (fun pkg => inScope rule pkg) with
  | nil => simp
  | cons pkg rest ih =>
    have := imports_bind_length_le rule pkg pkg.Imports
    simp only [List.flatMap_cons, List.length_append, List.map_cons, List.sum_cons]
    omega

/-! ## Pattern matcher lemmas -/

theorem matchesPattern_star (S P : String) :
    matchesPattern S (P ++ "*") = HasPrefix S P := by
  have h : HasSuffix (P ++ "*") "*" = true := (HasSuffix_iff _ _).2 ⟨P, rfl⟩
  unfold matchesPattern
  rw [if_pos h]
  simp only [TrimSuffix_append]

theorem matchesPattern_exact (S pattern : String) (h : HasSuffix pattern "*" = false) :
    matchesPattern S pattern = true ↔ S = pattern := by
  unfold matchesPattern
  simp [h]

theorem append_ne_self (p T : String) (hT : T ≠ "") : p ++ T ≠ p := by
  intro h
  apply hT
  have hd := congrArg String.data h
  rw [data_mk_append] at hd
  have hl := congrArg List.length hd
  rw [List.length_append] at hl
  have h0 : T.data = [] := List.length_eq_zero.1 (by omega)
  exact String.ext h0

/-! ## Rule evaluator lemmas -/

theorem referenceViolations_of_none (packages : List Package) (rule : Rule)
    (h : ∀ pkg ∈ packages, inScope rule pkg = false) :
    referenceViolations packages rule = [] := by
  have hf : packages.filter (fun pkg => inScope rule pkg) = [] := by
    rw [List.filter_eq_nil_iff]
    intro pkg hp
    simp [h pkg hp]
  simp [referenceViolations, hf]

theorem referenceViolations_filter (packages : List Package) (rule : Rule) :
    referenceViolations (packages.filter (fun pkg => inScope rule pkg)) rule =
      referenceViolations packages rule := by
  simp [referenceViolations, List.filter_filter]

theorem referenceAll_append (packages : List Package) (r1 r2 : List Rule) :
    referenceAll packages (r1 ++ r2) = referenceAll packages r1 ++ referenceAll packages r2 := by
  simp [referenceAll, List.flatMap_append]

theorem referenceAll_of_none (packages : List Package) (rules : List Rule)
    (h : ∀ r ∈ rules, r.RuleType ≠ "denied-list") :
    referenceAll packages rules = [] := by
  induction rules with
  | nil => rfl
  | cons r rest ih =>
    have hr : r.RuleType ≠ "denied-list" := h r (List.mem_cons_self _ _)
    have hrest := ih (fun q hq => h q (List.mem_cons_of_mem _ hq))
    unfold referenceAll at hrest ⊢
    simp [List.flatMap_cons, hr, hrest]

theorem referenceAll_filter (packages : List Package) (rules : List Rule) :
    referenceAll packages (rules.filter (fun r => decide (r.RuleType = "denied-list"))) =
      referenceAll packages rules := by
  induction rules with
  | nil => rfl
  | cons r rest ih =>
    unfold referenceAll at ih ⊢
    by_cases hr : r.RuleType = "denied-list"
    · simp [List.filter_cons, List.flatMap_cons, hr, ih]
    · simp [List.filter_cons, List.flatMap_cons, hr, ih]

theorem referenceAll_length (packages : List Package) (rules : List Rule) :
    (referenceAll packages rules).length =
      ((rules.filter (fun r => decide (r.RuleType = "denied-list"))).map
        (fun r => (CheckDeniedListRule packages r).length)).sum := by
  induction rules with
  | nil => rfl
  | cons r rest ih =>
    unfold referenceAll at ih ⊢
    by_cases hr : r.RuleType = "denied-list"
    · simp [List.filter_cons, List.flatMap_cons, hr, ih]
    · simp [List.filter_cons, List.flatMap_cons, hr, ih]

/-! ## Scope matcher lemmas -/

/-- The package directory is normalised exactly as `normalizeDirectory` does. -/
theorem isInDirectory_eq (P T : String) :
    isInDirectory P T =
      (HasPrefix (normalizeDirectory P) T ||
        HasSuffix (normalizeDirectory P) ("/" ++ TrimSuffix T "/" ++ "/") ||
        Contains (normalizeDirectory P) ("/" ++ TrimSuffix T "/" ++ "/")) :=
  rfl

theorem isInDirectory_iff (P T : String) :
    isInDirectory P T = true ↔
      (∃ t : String, normalizeDirectory P = T ++ t) ∨
      (∃ t : String, normalizeDirectory P = t ++ ("/" ++ TrimSuffix T "/" ++ "/")) ∨
      (∃ a b : String, normalizeDirectory P = a ++ ("/" ++ TrimSuffix T "/" ++ "/") ++ b) := by
  rw [isInDirectory_eq, Bool.or_eq_true, Bool.or_eq_true, HasPrefix_iff, HasSuffix_iff,
    Contains_iff, or_assoc]

theorem slash_data : ("/" : String).data = ['/'] := rfl

theorem bounded_data (R : String) :
    ("/" ++ R ++ "/" : String).data = '/' :: (R.data ++ ['/']) := by
  rw [data_mk_append, data_mk_append, slash_data]
  rfl

/-- On the underlying sequences: the scope test against `R ++ "/"` asks whether the
normalised package directory starts with `R/` or contains `/R/`. -/
theorem isInDirectory_slash_iff_data (P R : String) :
    isInDirectory P (R ++ "/") = true ↔
      (R.data ++ ['/']) <+: (normalizeDirectory P).data ∨
      ('/' :: (R.data ++ ['/'])) <:+: (normalizeDirectory P).data := by
  rw [isInDirectory_eq, TrimSuffix_append, Bool.or_eq_true, Bool.or_eq_true,
    HasPrefix_iff_data, HasSuffix_iff_data, Contains_iff_data, bounded_data,
    data_mk_append, slash_data, or_assoc]
  constructor
  · rintro (h | h | h)
    · exact Or.inl h
    · exact Or.inr h.isInfix
    · exact Or.inr h
  · rintro (h | h)
    · exact Or.inl h
    · exact Or.inr (Or.inr h)

theorem not_HasSuffix_of_not_mem (X : String) (hX : '/' ∉ X.data) :
    HasSuffix X "/" = false := by
  rw [← Bool.not_eq_true, HasSuffix_iff_data, slash_data]
  rintro ⟨t, ht⟩
  apply hX
  rw [← ht]
  simp

theorem not_HasSuffix_append (D X : String) (hne : X ≠ "") (hX : '/' ∉ X.data) :
    HasSuffix (D ++ X) "/" = false := by
  rw [← Bool.not_eq_true, HasSuffix_iff_data, slash_data, data_mk_append]
  rintro ⟨t, ht⟩
  have hXne : X.data ≠ [] := fun h => hne (String.ext h)
  have h1 := List.getLast_append' D.data X.data hXne
  have h2 : (D.data ++ X.data).getLast (List.append_ne_nil_of_right_ne_nil _ hXne) = '/' := by
    have h3 : ∀ (l : List Char) (hl : l ≠ []), l = t ++ ['/'] → l.getLast hl = '/' := by
      intro l hl e
      subst e
      simp
    exact h3 _ _ ht.symm
  apply hX
  rw [← h2, h1]
  exact List.getLast_mem hXne

/-- Normalising `D ++ X` or `D ++ X ++ "/"` gives `D ++ X ++ "/"` when `X` is
non-empty and free of "/". -/
theorem normalizeDirectory_append (D X : String) (hne : X ≠ "") (hX : '/' ∉ X.data) :
    normalizeDirectory (D ++ X) = D ++ X ++ "/" ∧
      normalizeDirectory (D ++ X ++ "/") = D ++ X ++ "/" :=
  ⟨normalizeDirectory_of_not_suffix _ (not_HasSuffix_append D X hne hX),
    normalizeDirectory_of_suffix _ ((HasSuffix_iff _ _).2 ⟨D ++ X, rfl⟩)⟩

theorem not_prefix_sibling (D X : List Char) (hne : X ≠ []) (hX : '/' ∉ X) :
    ¬ (D ++ ['/']) <+: (D ++ X ++ ['/']) := by
  rw [List.append_assoc, List.prefix_append_right_inj]
  cases X with
  | nil => exact absurd rfl hne
  | cons x X' =>
    rw [List.cons_append, List.cons_prefix_cons]
    rintro ⟨hx, -⟩
    exact hX (hx ▸ List.mem_cons_self _ _)

theorem not_infix_sibling (D X : List Char) (hX : '/' ∉ X) :
    ¬ ('/' :: (D ++ ['/'])) <:+: (D ++ X ++ ['/']) := by
  rintro ⟨a, b, h⟩
  have hc := congrArg (List.count '/') h
  have h0 : List.count '/' X = 0 := List.count_eq_zero.2 hX
  simp only [List.count_append, List.count_cons_self, List.count_nil, h0] at hc
  omega

theorem isInDirectory_sibling (D X P : String) (hne : X ≠ "") (hX : '/' ∉ X.data)
    (hP : normalizeDirectory P = D ++ X ++ "/") :
    isInDirectory P (D ++ "/") = false := by
  rw [← Bool.not_eq_true, isInDirectory_slash_iff_data, hP, data_mk_append, data_mk_append,
    slash_data]
  have hXne : X.data ≠ [] := fun h => hne (String.ext h)
  rintro (h | h)
  · exact not_prefix_sibling D.data X.data hXne hX h
  · exact not_infix_sibling D.data X.data hX h

/-! ## Path components -/

/-- The first component is free of "/"; either it is the whole sequence, or it is
followed by a "/" and the remaining components are those of what follows. -/
theorem splitSlash_head (l : List Char) :
    ∃ h t, splitSlash l = h :: t ∧ '/' ∉ h ∧
      ((t = [] ∧ l = h) ∨ (∃ r, l = h ++ '/' :: r ∧ t = splitSlash r)) := by
  induction l with
  | nil => exact ⟨[], [], rfl, by simp, Or.inl ⟨rfl, rfl⟩⟩
  | cons c cs ih =>
    by_cases hc : c = '/'
    · subst hc
      exact ⟨[], splitSlash cs, by simp [splitSlash], by simp, Or.inr ⟨cs, rfl, rfl⟩⟩
    · obtain ⟨h, t, e, hh, ht⟩ := ih
      refine ⟨c :: h, t, by simp [splitSlash, hc, e], ?_, ?_⟩
      · intro hm
        rcases List.mem_cons.1 hm with h1 | h1
        · exact hc h1.symm
        · exact hh h1
      · rcases ht with ⟨h1, h2⟩ | ⟨r, h1, h2⟩
        · exact Or.inl ⟨h1, by rw [h2]⟩
        · exact Or.inr ⟨r, by rw [h1]; rfl, h2⟩

/-- Joining the components with "/" gives the sequence back. -/
theorem intercalate_splitSlash (l : List Char) :
    List.intercalate ['/'] (splitSlash l) = l := by
  induction l with
  | nil => rfl
  | cons c cs ih =>
    obtain ⟨h, t, e, -, -⟩ := splitSlash_head cs
    rw [e] at ih
    by_cases hc : c = '/'
    · subst hc
      rw [splitSlash, if_pos rfl, e]
      simp only [List.intercalate, List.intersperse, List.flatten_cons] at ih ⊢
      rw [ih]
      rfl
    · have e2 : splitSlash (c :: cs) = (c :: h) :: t := by simp [splitSlash, hc, e]
      rw [e2]
      cases t with
      | nil =>
        simp only [List.intercalate, List.intersperse, List.flatten_cons, List.flatten_nil,
          List.append_nil] at ih ⊢
        rw [ih]
      | cons t1 t2 =>
        simp only [List.intercalate, List.intersperse, List.flatten_cons] at ih ⊢
        rw [List.cons_append, ih]

/-- No component contains a "/". -/
theorem splitSlash_no_slash (l : List Char) : ∀ c ∈ splitSlash l, '/' ∉ c := by
  induction l with
  | nil =>
    intro c hc
    rw [splitSlash, List.mem_singleton] at hc
    subst hc
    simp
  | cons x xs ih =>
    obtain ⟨h, t, e, -, -⟩ := splitSlash_head xs
    rw [e] at ih
    by_cases hx : x = '/'
    · subst hx
      rw [splitSlash, if_pos rfl, e]
      intro c hc
      rcases List.mem_cons.1 hc with h1 | h1
      · subst h1
        simp
      · exact ih c h1
    · have e2 : splitSlash (x :: xs) = (x :: h) :: t := by simp [splitSlash, hx, e]
      rw [e2]
      intro c hc
      rcases List.mem_cons.1 hc with h1 | h1
      · subst h1
        intro hm
        rcases List.mem_cons.1 hm with h2 | h2
        · exact hx h2.symm
        · exact ih h (List.mem_cons_self _ _) h2
      · exact ih c (List.mem_cons_of_mem _ h1)

/-- Two "/"-free sequences each followed by "/": one is a prefix of the other
exactly when they are equal. -/
theorem bounded_prefix_iff (D h rest : List Char) (hD : '/' ∉ D) (hh : '/' ∉ h) :
    (D ++ ['/']) <+: (h ++ '/' :: rest) ↔ D = h := by
  induction D generalizing h with
  | nil =>
    cases h with
    | nil => simp
    | cons c h1 =>
      have hc : ¬ '/' = c := fun e => hh (e ▸ List.mem_cons_self _ _)
      simp [hc]
  | cons d D1 ih =>
    have hd : ¬ d = '/' := fun e => hD (e ▸ List.mem_cons_self _ _)
    cases h with
    | nil => simp [hd]
    | cons c h1 =>
      have hD1 : '/' ∉ D1 := fun hm => hD (List.mem_cons_of_mem _ hm)
      have hh1 : '/' ∉ h1 := fun hm => hh (List.mem_cons_of_mem _ hm)
      rw [List.cons_append, List.cons_append, List.cons_prefix_cons, ih h1 hD1 hh1]
      simp

/-- An occurrence of `/D/` cannot start inside a "/"-free stretch. -/
theorem bounded_infix_skip (D h rest : List Char) (hh : '/' ∉ h) :
    ('/' :: (D ++ ['/'])) <:+: (h ++ '/' :: rest) ↔
      ('/' :: (D ++ ['/'])) <:+: ('/' :: rest) := by
  induction h with
  | nil => rfl
  | cons c h1 ih =>
    have hc : ¬ '/' = c := fun e => hh (e ▸ List.mem_cons_self _ _)
    have hh1 : '/' ∉ h1 := fun hm => hh (List.mem_cons_of_mem _ hm)
    rw [List.cons_append, List.infix_cons_iff, List.cons_prefix_cons, ih hh1]
    simp [hc]

theorem bounded_infix_step (D h rest : List Char) (hD : '/' ∉ D) (hh : '/' ∉ h) :
    ('/' :: (D ++ ['/'])) <:+: ('/' :: (h ++ '/' :: rest)) ↔
      D = h ∨ ('/' :: (D ++ ['/'])) <:+: ('/' :: rest) := by
  rw [List.infix_cons_iff, List.cons_prefix_cons, bounded_prefix_iff D h rest hD hh,
    bounded_infix_skip D h rest hh]
  simp

/-- A "/"-free `D` is a component of `l` exactly when `/D/` occurs in `/l/`. -/
theorem mem_splitSlash_iff (D : List Char) (hD : '/' ∉ D) (n : Nat) :
    ∀ l : List Char, l.length ≤ n →
      (D ∈ splitSlash l ↔ ('/' :: (D ++ ['/'])) <:+: ('/' :: (l ++ ['/']))) := by
  induction n with
  | zero =>
    intro l hl
    have : l = [] := List.length_eq_zero.1 (Nat.le_zero.1 hl)
    subst this
    have := bounded_infix_step D [] [] hD (by simp)
    simp only [List.nil_append] at this ⊢
    rw [this, splitSlash, List.mem_singleton]
    constructor
    · exact Or.inl
    · rintro (h | h)
      · exact h
      · have := h.length_le
        simp at this
  | succ n ih =>
    intro l hl
    obtain ⟨h, t, e, hh, ht⟩ := splitSlash_head l
    rw [e]
    rcases ht with ⟨h1, h2⟩ | ⟨r, h1, h2⟩
    · subst h1 h2
      rw [bounded_infix_step D l [] hD hh, List.mem_singleton]
      constructor
      · exact Or.inl
      · rintro (h | h)
        · exact h
        · have := h.length_le
          simp at this
    · have hr : r.length ≤ n := by
        have := congrArg List.length h1
        simp at this
        omega
      rw [h1, List.append_assoc, List.cons_append, bounded_infix_step D h _ hD hh,
        ← ih r hr, List.mem_cons, h2]

theorem splitSlash_append_slash (l : List Char) :
    splitSlash (l ++ ['/']) = splitSlash l ++ [[]] := by
  induction l with
  | nil => rfl
  | cons c cs ih =>
    by_cases hc : c = '/'
    · simp [splitSlash, hc, ih]
    · obtain ⟨h, t, e, -, -⟩ := splitSlash_head cs
      simp [splitSlash, hc, ih, e]

theorem mem_components_iff (D P : String) :
    D ∈ components P ↔ D.data ∈ splitSlash P.data := by
  unfold components
  rw [List.mem_map]
  constructor
  · rintro ⟨a, ha, rfl⟩
    exact ha
  · intro h
    exact ⟨D.data, h, rfl⟩

/-- For a non-empty directory name without "/", the scope test against `D ++ "/"`
holds exactly when `D` is one of the components of the package directory. -/
theorem isInDirectory_iff_component (D P : String) (hne : D ≠ "") (hD : '/' ∉ D.data) :
    isInDirectory P (D ++ "/") = true ↔ D ∈ components P := by
  have hDne : D.data ≠ [] := fun h => hne (String.ext h)
  have key : ∀ Q : List Char,
      ((D.data ++ ['/']) <+: Q ∨ ('/' :: (D.data ++ ['/'])) <:+: Q) ↔
        ('/' :: (D.data ++ ['/'])) <:+: ('/' :: Q) := by
    intro Q
    rw [List.infix_cons_iff, List.cons_prefix_cons]
    simp
  rw [isInDirectory_slash_iff_data, key, mem_components_iff]
  cases hs : HasSuffix P "/" with
  | false =>
    rw [normalizeDirectory_of_not_suffix P hs, data_mk_append, slash_data]
    exact (mem_splitSlash_iff D.data hD _ P.data (Nat.le_refl _)).symm
  | true =>
    rw [normalizeDirectory_of_suffix P hs]
    obtain ⟨t, ht⟩ := (HasSuffix_iff_data P "/").1 hs
    rw [slash_data] at ht
    rw [← ht, ← mem_splitSlash_iff D.data hD _ t (Nat.le_refl _), splitSlash_append_slash,
      List.mem_append, List.mem_singleton]
    constructor
    · exact Or.inl
    · rintro (h | h)
      · exact h
      · exact absurd h hDne

/-! ## Invariance lemmas -/

theorem normalizeDirectory_HasSuffix (D : String) :
    HasSuffix (normalizeDirectory D) "/" = true := by
  cases h : HasSuffix D "/" with
  | false =>
    rw [normalizeDirectory_of_not_suffix D h]
    exact (HasSuffix_iff _ _).2 ⟨D, rfl⟩
  | true =>
    rw [normalizeDirectory_of_suffix D h]
    exact h

theorem normalizeDirectory_idem (D : String) :
    normalizeDirectory (normalizeDirectory D) = normalizeDirectory D :=
  normalizeDirectory_of_suffix _ (normalizeDirectory_HasSuffix D)

theorem normalizeDirectory_append_slash (D : String) (h : HasSuffix D "/" = false) :
    normalizeDirectory (D ++ "/") = normalizeDirectory D := by
  rw [normalizeDirectory_of_not_suffix D h]
  exact normalizeDirectory_of_suffix _ ((HasSuffix_iff _ _).2 ⟨D, rfl⟩)

/-- The scope test reads the package directory only through its normal form. -/
theorem isInDirectory_congr (P Q T : String)
    (h : normalizeDirectory P = normalizeDirectory Q) :
    isInDirectory P T = isInDirectory Q T := by
  rw [isInDirectory_eq, isInDirectory_eq, h]

/-- The result for one rule depends on a package only through its scope status, its
`ImportPath` and its `Imports`. -/
theorem referenceViolations_congr (rule : Rule) (ps qs : List Package)
    (h : List.Forall₂ (fun p q => inScope rule p = inScope rule q ∧
      p.ImportPath = q.ImportPath ∧ p.Imports = q.Imports) ps qs) :
    referenceViolations ps rule = referenceViolations qs rule := by
  induction h with
  | nil => rfl
  | @cons p q ps1 qs1 hpq _ ih =>
    obtain ⟨h1, h2, h3⟩ := hpq
    unfold referenceViolations at ih ⊢
    have hc : ∀ imp, importContribution rule p imp = importContribution rule q imp := by
      intro imp
      unfold importContribution
      rw [h2]
    cases hq : inScope rule q with
    | false =>
      have hp : inScope rule p = false := by rw [h1, hq]
      simp only [List.filter_cons, hp, hq, Bool.false_eq_true, if_false]
      exact ih
    | true =>
      have hp : inScope rule p = true := by rw [h1, hq]
      simp only [List.filter_cons, hp, hq, if_true, List.flatMap_cons, h3, hc]
      rw [ih]

theorem any_perm (f : String → Bool) (l1 l2 : List String) (h : l1.Perm l2) :
    l1.any f = l2.any f := by
  rw [Bool.eq_iff_iff, List.any_eq_true, List.any_eq_true]
  constructor
  · rintro ⟨x, hx, hf⟩
    exact ⟨x, h.mem_iff.1 hx, hf⟩
  · rintro ⟨x, hx, hf⟩
    exact ⟨x, h.mem_iff.2 hx, hf⟩

/-- The result for one rule reads the rule only through its directory, its type and
the "some pattern matches" predicate of its body. -/
theorem referenceViolations_rule_congr (packages : List Package) (r1 r2 : Rule)
    (hd : r1.Directory = r2.Directory) (ht : r1.RuleType = r2.RuleType)
    (hb : ∀ imp : String, r1.RuleBody.any (fun pattern => matchesPattern imp pattern) =
      r2.RuleBody.any (fun pattern => matchesPattern imp pattern)) :
    referenceViolations packages r1 = referenceViolations packages r2 := by
  have hs : ∀ pkg, inScope r1 pkg = inScope r2 pkg := by
    intro pkg
    unfold inScope
    rw [hd]
  have hc : ∀ pkg imp, importContribution r1 pkg imp = importContribution r2 pkg imp := by
    intro pkg imp
    unfold importContribution
    rw [hb imp, ht]
  unfold referenceViolations
  simp only [hs, hc]

theorem mem_referenceViolations (packages : List Package) (rule : Rule) (v : Violation)
    (hv : v ∈ referenceViolations packages rule) :
    v.RuleType = rule.RuleType ∧
      ∃ pkg ∈ packages, v.PackagePath = pkg.ImportPath ∧ v.ImportPath ∈ pkg.Imports := by
  unfold referenceViolations at hv
  rw [List.mem_flatMap] at hv
  obtain ⟨pkg, hpkg, hv⟩ := hv
  rw [List.mem_flatMap] at hv
  obtain ⟨imp, himp, hv⟩ := hv
  unfold importContribution at hv
  split at hv
  · rw [List.mem_singleton] at hv
    subst hv
    exact ⟨rfl, pkg, (List.mem_filter.1 hpkg).1, rfl, himp⟩
  · exact absurd hv (List.not_mem_nil _)

theorem mem_referenceAll (packages : List Package) (rules : List Rule) (v : Violation)
    (hv : v ∈ referenceAll packages rules) :
    ∃ r ∈ rules, r.RuleType = "denied-list" ∧ v ∈ referenceViolations packages r := by
  unfold referenceAll at hv
  rw [List.mem_flatMap] at hv
  obtain ⟨r, hr, hv⟩ := hv
  split at hv
  · rename_i ht
    rw [CheckDeniedListRule_eq_reference] at hv
    exact ⟨r, hr, ht, hv⟩
  · exact absurd hv (List.not_mem_nil _)

theorem referenceAll_congr (rules : List Rule) (ps qs : List Package)
    (h : ∀ r ∈ rules, referenceViolations ps r = referenceViolations qs r) :
    referenceAll ps rules = referenceAll qs rules := by
  induction rules with
  | nil => rfl
  | cons r rest ih =>
    have hr := h r (List.mem_cons_self _ _)
    have hrest := ih (fun q hq => h q (List.mem_cons_of_mem _ hq))
    unfold referenceAll at hrest ⊢
    simp only [List.flatMap_cons, CheckDeniedListRule_eq_reference] at hrest ⊢
    rw [hr, hrest]

/-! ## Package loader lemmas -/

/-- When `More` is false the loop body is never entered. -/
theorem decodeLoop_of_not_More (d : Decoder) (fuel : Nat) (buf : List Char)
    (acc : List Package) (h : More buf = false) :
    decodeLoop d (fuel + 1) buf acc = some (acc, none) := by
  rw [decodeLoop]
  simp [h]

/-- With enough iterations the loop ends: either with an error and no packages, or
without error and with the records of the input appended to what was collected. -/
theorem decodeLoop_total (d : Decoder) (fuel : Nat) :
    ∀ (buf : List Char) (acc : List Package), buf.length < fuel →
      (∃ e, decodeLoop d fuel buf acc = some ([], some e)) ∨
      (∃ pkgs, Records d buf pkgs ∧ decodeLoop d fuel buf acc = some (acc ++ pkgs, none)) := by
  induction fuel with
  | zero =>
    intro buf acc h
    exact absurd h (Nat.not_lt_zero _)
  | succ n ih =>
    intro buf acc h
    cases hm : More buf with
    | false =>
      exact Or.inr ⟨[], Records.done buf hm, by
        rw [decodeLoop_of_not_More d n buf acc hm, List.append_nil]⟩
    | true =>
      rw [decodeLoop]
      simp only [hm, if_true]
      cases hd : d.Decode buf with
      | error err => exact Or.inl ⟨_, rfl⟩
      | ok r =>
        obtain ⟨pkg, rest⟩ := r
        have hlt : rest.length < n := by
          have := d.consumes buf pkg rest hd
          omega
        rcases ih rest (acc ++ [pkg]) hlt with ⟨e, he⟩ | ⟨pkgs, hr, he⟩
        · exact Or.inl ⟨e, he⟩
        · refine Or.inr ⟨pkg :: pkgs, Records.next buf rest pkg pkgs hm hd hr, ?_⟩
          simp only [he, List.append_assoc, List.singleton_append]

/-- The records of an input are what the loop returns on success. -/
theorem decodeLoop_of_Records (d : Decoder) (buf : List Char) (pkgs : List Package)
    (h : Records d buf pkgs) :
    ∀ (fuel : Nat) (acc : List Package), buf.length < fuel →
      decodeLoop d fuel buf acc = some (acc ++ pkgs, none) := by
  induction h with
  | done buf hm =>
    intro fuel acc hf
    cases fuel with
    | zero => exact absurd hf (Nat.not_lt_zero _)
    | succ n => rw [decodeLoop_of_not_More d n buf acc hm, List.append_nil]
  | next buf rest pkg pkgs hm hd _ ih =>
    intro fuel acc hf
    cases fuel with
    | zero => exact absurd hf (Nat.not_lt_zero _)
    | succ n =>
      have hlt : rest.length < n := by
        have := d.consumes buf pkg rest hd
        omega
      rw [decodeLoop]
      simp only [hm, if_true, hd]
      rw [ih n (acc ++ [pkg]) hlt]
      simp only [List.append_assoc, List.singleton_append]

theorem referenceAll_nil_packages (rules : List Rule) : referenceAll [] rules = [] := by
  induction rules with
  | nil => rfl
  | cons r rest ih =>
    unfold referenceAll at ih ⊢
    rw [List.flatMap_cons, ih, List.append_nil]
    split <;> rfl

/-! ## Claims -/

/-- C1: for every package list and every rule, `CheckDeniedListRule` equals the
reference list of the specification: packages in input order, only those whose `Dir`
is in scope of the normalised rule directory, each kept package's imports in order,
and for every import that matches at least one pattern exactly one violation with the
four fields of the specification; nothing else is emitted. -/
theorem C1_CheckDeniedListRule_eq_reference (packages : List Package) (rule : Rule) :
    CheckDeniedListRule packages rule =
      (packages.filter
          (fun pkg => isInDirectory pkg.Dir (normalizeDirectory rule.Directory))).flatMap
        (fun pkg => pkg.Imports.flatMap (fun imp =>
          if rule.RuleBody.any (fun pattern => matchesPattern imp pattern) then
            [{ PackagePath := pkg.ImportPath
               ImportPath := imp
               RuleType := rule.RuleType
               Message :=
                 "package " ++ pkg.ImportPath ++ " imports denied dependency " ++ imp }]
          else [])) :=
  CheckDeniedListRule_eq_reference packages rule

/-- C2: `CheckRules` is the concatenation, in rule order, of `CheckDeniedListRule` for
the rules whose `RuleType` is "denied-list" and of the empty list for every other
rule; it distributes over concatenation of rule lists; and nothing is merged: its
length is the sum of the lengths of the per-rule results. -/
theorem C2_CheckRules_concat (packages : List Package) (rules : List Rule) :
    CheckRules packages rules =
        rules.flatMap (fun r =>
          if r.RuleType = "denied-list" then CheckDeniedListRule packages r else []) ∧
      (∀ r1 r2 : List Rule,
        CheckRules packages (r1 ++ r2) = CheckRules packages r1 ++ CheckRules packages r2) ∧
      (CheckRules packages rules).length =
        ((rules.filter (fun r => decide (r.RuleType = "denied-list"))).map
          (fun r => (CheckDeniedListRule packages r).length)).sum := by
  refine ⟨CheckRules_eq_reference packages rules, ?_, ?_⟩
  · intro r1 r2
    simp only [CheckRules_eq_reference, referenceAll_append]
  · rw [CheckRules_eq_reference, referenceAll_length]

/-- C3: wildcard containment. For every `P` and `S`, `matchesPattern S (P ++ "*")` is
true if and only if `S` starts with `P`, that is `S = P ++ T` for some `T` (possibly
empty); no condition on `P`. -/
theorem C3_wildcard_containment (S P : String) :
    matchesPattern S (P ++ "*") = true ↔ ∃ T : String, S = P ++ T := by
  rw [matchesPattern_star, HasPrefix_iff]

/-- C4: exact-match exclusivity. For a pattern that does not end with "*",
`matchesPattern S pattern` is true if and only if `S = pattern`; in particular the
pattern followed by a non-empty rest does not match. -/
theorem C4_exact_match (pattern : String) (h : HasSuffix pattern "*" = false) :
    (∀ S : String, matchesPattern S pattern = true ↔ S = pattern) ∧
      (∀ T : String, T ≠ "" → matchesPattern (pattern ++ T) pattern = false) := by
  refine ⟨fun S => matchesPattern_exact S pattern h, ?_⟩
  intro T hT
  rw [← Bool.not_eq_true, matchesPattern_exact _ _ h]
  exact append_ne_self pattern T hT

theorem C4_exact_match_witness :
    HasSuffix "a" "*" = false ∧ matchesPattern "a/b" "a" = false :=
  ⟨by decide, (C4_exact_match "a" (by decide)).2 "/b" (by decide)⟩

/-- C5: out-of-scope packages are invisible. If no package of the list passes the
scope test of the rule, `CheckDeniedListRule` returns no violations; and removing the
out-of-scope packages from any list does not change the result. -/
theorem C5_out_of_scope_invisible (packages : List Package) (rule : Rule) :
    ((∀ pkg ∈ packages,
        isInDirectory pkg.Dir (normalizeDirectory rule.Directory) = false) →
      CheckDeniedListRule packages rule = []) ∧
    CheckDeniedListRule
        (packages.filter
          (fun pkg => isInDirectory pkg.Dir (normalizeDirectory rule.Directory))) rule =
      CheckDeniedListRule packages rule := by
  constructor
  · intro h
    rw [CheckDeniedListRule_eq_reference]
    exact referenceViolations_of_none packages rule h
  · rw [CheckDeniedListRule_eq_reference, CheckDeniedListRule_eq_reference]
    exact referenceViolations_filter packages rule

theorem C5_out_of_scope_invisible_witness :
    CheckDeniedListRule
      [{ ImportPath := "proj/example", Dir := "/project/example/", Deps := [],
         Imports := ["fmt", "github.com/blocked/pkg"] }]
      { Directory := "other/", RuleType := "denied-list",
        RuleBody := ["github.com/blocked/*"] } = [] :=
  (C5_out_of_scope_invisible _ _).1 (by decide)

/-- C6: unsupported rule kinds are no-ops. If no rule of the list has `RuleType`
"denied-list", `CheckRules` returns no violations; and removing the rules of any other
kind from any rule list does not change the result. -/
theorem C6_unsupported_kinds_noop (packages : List Package) (rules : List Rule) :
    ((∀ r ∈ rules, r.RuleType ≠ "denied-list") → CheckRules packages rules = []) ∧
    CheckRules packages (rules.filter (fun r => decide (r.RuleType = "denied-list"))) =
      CheckRules packages rules := by
  constructor
  · intro h
    rw [CheckRules_eq_reference]
    exact referenceAll_of_none packages rules h
  · rw [CheckRules_eq_reference, CheckRules_eq_reference]
    exact referenceAll_filter packages rules

theorem C6_unsupported_kinds_noop_witness :
    CheckRules
      [{ ImportPath := "proj/example", Dir := "/project/example/", Deps := [],
         Imports := ["github.com/blocked/pkg"] }]
      [{ Directory := "example/", RuleType := "unsupported-type",
         RuleBody := ["github.com/blocked/*"] }] = [] :=
  (C6_unsupported_kinds_noop _ _).1 (by decide)

/-- C7: first pattern wins, no duplicate violations. For an in-scope package with
exactly one import that at least one pattern of the rule matches, `CheckDeniedListRule`
on that package returns exactly one violation (the one for that import); and for every
package list the number of violations of one rule is at most the total number of
imports of the in-scope packages. -/
theorem C7_first_pattern_wins (rule : Rule) :
    (∀ (pkg : Package) (imp : String),
      pkg.Imports = [imp] →
      isInDirectory pkg.Dir (normalizeDirectory rule.Directory) = true →
      (∃ pattern ∈ rule.RuleBody, matchesPattern imp pattern = true) →
      CheckDeniedListRule [pkg] rule =
        [{ PackagePath := pkg.ImportPath
           ImportPath := imp
           RuleType := rule.RuleType
           Message :=
             "package " ++ pkg.ImportPath ++ " imports denied dependency " ++ imp }]) ∧
    (∀ packages : List Package,
      (CheckDeniedListRule packages rule).length ≤
        ((packages.filter
            (fun pkg => isInDirectory pkg.Dir (normalizeDirectory rule.Directory))).map
          (fun pkg => pkg.Imports.length)).sum) := by
  constructor
  · intro pkg imp himp hscope hmatch
    have hs : inScope rule pkg = true := hscope
    have hany : rule.RuleBody.any (fun pattern => matchesPattern imp pattern) = true :=
      List.any_eq_true.2 hmatch
    rw [CheckDeniedListRule_eq_reference]
    simp only [referenceViolations, List.filter_cons, hs, if_true, List.filter_nil,
      List.flatMap_cons, List.flatMap_nil, himp, importContribution, hany, List.append_nil]
  · intro packages
    rw [CheckDeniedListRule_eq_reference]
    exact referenceViolations_length_le packages rule

theorem C7_first_pattern_wins_witness :
    CheckDeniedListRule
      [{ ImportPath := "proj/example", Dir := "/project/example/", Deps := [],
         Imports := ["a/b"] }]
      { Directory := "example/", RuleType := "denied-list", RuleBody := ["a/*", "a/b"] } =
      [{ PackagePath := "proj/example", ImportPath := "a/b", RuleType := "denied-list",
         Message := "package proj/example imports denied dependency a/b" }] :=
  (C7_first_pattern_wins _).1 _ "a/b" rfl (by decide) ⟨"a/*", by decide, by decide⟩

/-- C8: scope matcher definition. With `P1` and `R1` the package and rule directories
after appending "/" when missing, and `R0` the string with `R1 = R0 ++ "/"`, the scope
test `isInDirectory P (normalizeDirectory R)` is true if and only if `P1` starts with
`R1`, or `P1` ends with `"/" ++ R0 ++ "/"`, or `P1` contains `"/" ++ R0 ++ "/"`. -/
theorem C8_scope_matcher_definition (P R P1 R1 R0 : String)
    (hP : ((∃ t : String, P = t ++ "/") ∧ P1 = P) ∨
      ((¬ ∃ t : String, P = t ++ "/") ∧ P1 = P ++ "/"))
    (hR : ((∃ t : String, R = t ++ "/") ∧ R1 = R) ∨
      ((¬ ∃ t : String, R = t ++ "/") ∧ R1 = R ++ "/"))
    (hR0 : R1 = R0 ++ "/") :
    isInDirectory P (normalizeDirectory R) = true ↔
      (∃ t : String, P1 = R1 ++ t) ∨
      (∃ t : String, P1 = t ++ ("/" ++ R0 ++ "/")) ∨
      (∃ a b : String, P1 = a ++ ("/" ++ R0 ++ "/") ++ b) := by
  have hPn : normalizeDirectory P = P1 := by
    rcases hP with ⟨h, e⟩ | ⟨h, e⟩
    · rw [e]
      exact normalizeDirectory_of_suffix P ((HasSuffix_iff _ _).2 h)
    · rw [e]
      apply normalizeDirectory_of_not_suffix
      rw [← Bool.not_eq_true, HasSuffix_iff]
      exact h
  have hRn : normalizeDirectory R = R1 := by
    rcases hR with ⟨h, e⟩ | ⟨h, e⟩
    · rw [e]
      exact normalizeDirectory_of_suffix R ((HasSuffix_iff _ _).2 h)
    · rw [e]
      apply normalizeDirectory_of_not_suffix
      rw [← Bool.not_eq_true, HasSuffix_iff]
      exact h
  have hT : TrimSuffix R1 "/" = R0 := by
    rw [hR0]
    exact TrimSuffix_append R0 "/"
  rw [isInDirectory_iff, hPn, hRn, hT]

theorem C8_scope_matcher_definition_witness :
    isInDirectory "/home/user/project/api" (normalizeDirectory "api") = true ↔
      (∃ t : String, "/home/user/project/api/" = ("api/" : String) ++ t) ∨
      (∃ t : String, "/home/user/project/api/" = t ++ ("/" ++ "api" ++ "/")) ∨
      (∃ a b : String, "/home/user/project/api/" = a ++ ("/" ++ "api" ++ "/") ++ b) :=
  C8_scope_matcher_definition "/home/user/project/api" "api" "/home/user/project/api/"
    "api/" "api"
    (Or.inr ⟨fun h => absurd ((HasSuffix_iff _ _).2 h) (by decide), by decide⟩)
    (Or.inr ⟨fun h => absurd ((HasSuffix_iff _ _).2 h) (by decide), by decide⟩)
    (by decide)

/-- C9: scope is whole-segment matching. For a non-empty rule directory name `D`
without "/", given as `D` or as `D ++ "/"`, and every package directory `P`, the scope
test is true if and only if `D` is equal to one of the "/"-separated components of
`P`. -/
theorem C9_whole_segment_matching (D P : String) (hne : D ≠ "") (hD : '/' ∉ D.data) :
    (isInDirectory P (normalizeDirectory D) = true ↔ D ∈ components P) ∧
    (isInDirectory P (normalizeDirectory (D ++ "/")) = true ↔ D ∈ components P) := by
  constructor
  · rw [normalizeDirectory_of_not_suffix D (not_HasSuffix_of_not_mem D hD)]
    exact isInDirectory_iff_component D P hne hD
  · rw [normalizeDirectory_of_suffix (D ++ "/") ((HasSuffix_iff _ _).2 ⟨D, rfl⟩)]
    exact isInDirectory_iff_component D P hne hD

theorem C9_whole_segment_matching_witness :
    isInDirectory "/home/user/project/api/" (normalizeDirectory "api/") = true ∧
    ¬ isInDirectory "/project/not-example/example-ish" (normalizeDirectory "example") = true :=
  ⟨((C9_whole_segment_matching "api" "/home/user/project/api/"
      (by decide) (by decide)).2).2 (by decide),
    fun h => absurd (((C9_whole_segment_matching "example" "/project/not-example/example-ish"
      (by decide) (by decide)).1).1 h) (by decide)⟩

/-- C10: normalisation prevents false prefix matches. For a rule directory `D` that does
not end in "/" and a non-empty `X` without "/", the package directory `D ++ X`, with or
without a trailing "/", is not in scope of `D`, and `CheckDeniedListRule` reports
nothing for a package located there. -/
theorem C10_no_false_prefix_match (D X : String) (hD : HasSuffix D "/" = false)
    (hne : X ≠ "") (hX : '/' ∉ X.data) :
    isInDirectory (D ++ X) (normalizeDirectory D) = false ∧
    isInDirectory (D ++ X ++ "/") (normalizeDirectory D) = false ∧
    (∀ (pkg : Package) (rule : Rule), rule.Directory = D →
      (pkg.Dir = D ++ X ∨ pkg.Dir = D ++ X ++ "/") →
      CheckDeniedListRule [pkg] rule = []) := by
  have hn := normalizeDirectory_append D X hne hX
  have h1 : isInDirectory (D ++ X) (normalizeDirectory D) = false := by
    rw [normalizeDirectory_of_not_suffix D hD]
    exact isInDirectory_sibling D X _ hne hX hn.1
  have h2 : isInDirectory (D ++ X ++ "/") (normalizeDirectory D) = false := by
    rw [normalizeDirectory_of_not_suffix D hD]
    exact isInDirectory_sibling D X _ hne hX hn.2
  refine ⟨h1, h2, ?_⟩
  intro pkg rule hr hp
  rw [CheckDeniedListRule_eq_reference]
  apply referenceViolations_of_none
  intro q hq
  rw [List.mem_singleton] at hq
  subst hq
  unfold inScope
  rw [hr]
  rcases hp with e | e
  · rw [e]; exact h1
  · rw [e]; exact h2

theorem C10_no_false_prefix_match_witness :
    isInDirectory "foobar" (normalizeDirectory "foo") = false ∧
    isInDirectory "foobar/" (normalizeDirectory "foo") = false :=
  have h := C10_no_false_prefix_match "foo" "bar" (by decide) (by decide) (by decide)
  ⟨h.1, h.2.1⟩

/-- C11: trailing separators are irrelevant. Appending "/" to a package directory that
does not end in "/", or to a rule directory that does not end in "/", changes neither
the scope test nor the result of `CheckDeniedListRule`. -/
theorem C11_trailing_separators_irrelevant :
    (∀ P R : String, HasSuffix P "/" = false →
      isInDirectory (P ++ "/") (normalizeDirectory R) =
        isInDirectory P (normalizeDirectory R)) ∧
    (∀ P R : String, HasSuffix R "/" = false →
      isInDirectory P (normalizeDirectory (R ++ "/")) =
        isInDirectory P (normalizeDirectory R)) ∧
    (∀ (before after : List Package) (pkg : Package) (rule : Rule),
      HasSuffix pkg.Dir "/" = false →
      CheckDeniedListRule (before ++ { pkg with Dir := pkg.Dir ++ "/" } :: after) rule =
        CheckDeniedListRule (before ++ pkg :: after) rule) ∧
    (∀ (packages : List Package) (rule : Rule), HasSuffix rule.Directory "/" = false →
      CheckDeniedListRule packages { rule with Directory := rule.Directory ++ "/" } =
        CheckDeniedListRule packages rule) := by
  refine ⟨?_, ?_, ?_, ?_⟩
  · intro P R h
    exact isInDirectory_congr _ _ _ (normalizeDirectory_append_slash P h)
  · intro P R h
    rw [normalizeDirectory_append_slash R h]
  · intro before after pkg rule h
    rw [CheckDeniedListRule_eq_reference, CheckDeniedListRule_eq_reference]
    apply referenceViolations_congr
    apply List.rel_append
    · exact List.forall₂_same.2 (fun x _ => ⟨rfl, rfl, rfl⟩)
    · refine List.Forall₂.cons ⟨?_, rfl, rfl⟩
        (List.forall₂_same.2 (fun x _ => ⟨rfl, rfl, rfl⟩))
      exact isInDirectory_congr _ _ _ (normalizeDirectory_append_slash pkg.Dir h)
  · intro packages rule h
    rw [CheckDeniedListRule_eq_reference, CheckDeniedListRule_eq_reference]
    unfold referenceViolations inScope importContribution
    simp only [normalizeDirectory_append_slash rule.Directory h]

theorem C11_trailing_separators_irrelevant_witness :
    isInDirectory "/project/example/" (normalizeDirectory "example") =
        isInDirectory "/project/example" (normalizeDirectory "example") ∧
      isInDirectory "/project/example" (normalizeDirectory "example/") =
        isInDirectory "/project/example" (normalizeDirectory "example") :=
  ⟨C11_trailing_separators_irrelevant.1 "/project/example" "example" (by decide),
    C11_trailing_separators_irrelevant.2.1 "/project/example" "example" (by decide)⟩

/-- C12: scope is closed under descending into subdirectories. If `P` is in scope of
`R`, then the normalised `P` (with its trailing "/") followed by any `X` is in scope
of `R` as well. -/
theorem C12_scope_closed_under_descent (P R X : String)
    (h : isInDirectory P (normalizeDirectory R) = true) :
    isInDirectory (normalizeDirectory P ++ X) (normalizeDirectory R) = true := by
  have hY : ∃ Y : String,
      normalizeDirectory (normalizeDirectory P ++ X) = normalizeDirectory P ++ Y := by
    cases hs : HasSuffix (normalizeDirectory P ++ X) "/" with
    | false =>
      refine ⟨X ++ "/", ?_⟩
      rw [normalizeDirectory_of_not_suffix _ hs]
      exact String.ext (by simp only [data_mk_append, List.append_assoc])
    | true =>
      exact ⟨X, normalizeDirectory_of_suffix _ hs⟩
  obtain ⟨Y, hY⟩ := hY
  rw [isInDirectory_iff] at h ⊢
  rw [hY]
  rcases h with ⟨t, ht⟩ | ⟨t, ht⟩ | ⟨a, b, ht⟩
  · refine Or.inl ⟨t ++ Y, ?_⟩
    rw [ht]
    exact String.ext (by simp only [data_mk_append, List.append_assoc])
  · refine Or.inr (Or.inr ⟨t, Y, ?_⟩)
    rw [ht]
  · refine Or.inr (Or.inr ⟨a, b ++ Y, ?_⟩)
    rw [ht]
    exact String.ext (by simp only [data_mk_append, List.append_assoc])

theorem C12_scope_closed_under_descent_witness :
    isInDirectory "/project/api" (normalizeDirectory "api/") = true ∧
      isInDirectory "/project/api/v1/handlers/" (normalizeDirectory "api/") = true :=
  ⟨by decide,
    C12_scope_closed_under_descent "/project/api" "api/" "v1/handlers/" (by decide)⟩

/-- C13: pattern order does not affect the result. For every permutation of the rule
body, `CheckDeniedListRule` returns the same violation list, elements and order. -/
theorem C13_pattern_order_irrelevant (packages : List Package) (rule : Rule)
    (body : List String) (h : body.Perm rule.RuleBody) :
    CheckDeniedListRule packages { rule with RuleBody := body } =
      CheckDeniedListRule packages rule := by
  rw [CheckDeniedListRule_eq_reference, CheckDeniedListRule_eq_reference]
  exact referenceViolations_rule_congr packages _ _ rfl rfl
    (fun imp => any_perm _ _ _ h)

theorem C13_pattern_order_irrelevant_witness :
    CheckDeniedListRule
      [{ ImportPath := "proj/example", Dir := "/project/example/", Deps := [],
         Imports := ["a/b", "fmt", "a/c"] }]
      { Directory := "example/", RuleType := "denied-list", RuleBody := ["a/b", "a/*"] } =
    CheckDeniedListRule
      [{ ImportPath := "proj/example", Dir := "/project/example/", Deps := [],
         Imports := ["a/b", "fmt", "a/c"] }]
      { Directory := "example/", RuleType := "denied-list", RuleBody := ["a/*", "a/b"] } :=
  C13_pattern_order_irrelevant _
    { Directory := "example/", RuleType := "denied-list", RuleBody := ["a/*", "a/b"] }
    ["a/b", "a/*"] (List.Perm.swap _ _ _)

/-- C14: every violation returned by `CheckRules` has `RuleType` equal to
"denied-list", whatever other kinds of rules the list contains. -/
theorem C14_violation_kind (packages : List Package) (rules : List Rule) :
    ∀ v ∈ CheckRules packages rules, v.RuleType = "denied-list" := by
  intro v hv
  rw [CheckRules_eq_reference] at hv
  obtain ⟨r, -, ht, hr⟩ := mem_referenceAll packages rules v hv
  rw [(mem_referenceViolations packages r v hr).1, ht]

theorem C14_violation_kind_witness :
    ({ PackagePath := "proj/example", ImportPath := "github.com/blocked/pkg",
       RuleType := "denied-list",
       Message := "package proj/example imports denied dependency github.com/blocked/pkg" }
        : Violation).RuleType = "denied-list" :=
  C14_violation_kind
    [{ ImportPath := "proj/example", Dir := "/project/example/", Deps := [],
       Imports := ["fmt", "github.com/blocked/pkg"] }]
    [{ Directory := "example/", RuleType := "unsupported-type", RuleBody := ["fmt"] },
     { Directory := "example/", RuleType := "denied-list",
       RuleBody := ["github.com/blocked/*"] }]
    _ (by decide)

/-- C15: the `Deps` field is never consulted. Two package lists that agree position by
position on `ImportPath`, `Dir` and `Imports` give identical results of `CheckRules`;
and every violation names an import listed in `Imports` of one of the packages. -/
theorem C15_deps_never_consulted (rules : List Rule) (ps qs : List Package)
    (h : List.Forall₂ agreeUpToDeps ps qs) :
    CheckRules ps rules = CheckRules qs rules ∧
      ∀ v ∈ CheckRules ps rules,
        ∃ pkg ∈ ps, v.PackagePath = pkg.ImportPath ∧ v.ImportPath ∈ pkg.Imports := by
  constructor
  · rw [CheckRules_eq_reference, CheckRules_eq_reference]
    apply referenceAll_congr
    intro r _
    apply referenceViolations_congr
    refine List.Forall₂.imp ?_ h
    intro p q hpq
    obtain ⟨h1, h2, h3⟩ := hpq
    refine ⟨?_, h1, h3⟩
    unfold inScope
    rw [h2]
  · intro v hv
    rw [CheckRules_eq_reference] at hv
    obtain ⟨r, -, -, hr⟩ := mem_referenceAll ps rules v hv
    exact (mem_referenceViolations ps r v hr).2

theorem C15_deps_never_consulted_witness :
    CheckRules
      [{ ImportPath := "proj/example", Dir := "/project/example/",
         Deps := ["github.com/blocked/pkg"], Imports := ["fmt"] }]
      [{ Directory := "example/", RuleType := "denied-list",
         RuleBody := ["github.com/blocked/*"] }] =
    CheckRules
      [{ ImportPath := "proj/example", Dir := "/project/example/",
         Deps := [], Imports := ["fmt"] }]
      [{ Directory := "example/", RuleType := "denied-list",
         RuleBody := ["github.com/blocked/*"] }] :=
  (C15_deps_never_consulted _ _ _
    (List.Forall₂.cons ⟨rfl, rfl, rfl⟩ List.Forall₂.nil)).1

/-- C16: on the manifest text "}", which is not a sequence of JSON objects, the loader
returns no packages and no error, whatever `Decode` does: `More` is false at a closing
brace or bracket, so the loop ends before any record is decoded. -/
theorem C16_stray_closing_delimiter (d : Decoder) :
    ParsePackagesJSON d "\x7d" = some ([], none) ∧
      ParsePackagesJSON d " ]" = some ([], none) :=
  ⟨rfl, rfl⟩

/-- C17: no half-finished result in the loader. `ParsePackagesJSON` always returns;
whenever it returns an error the package list is empty; and it returns success with
a list exactly when that list is the sequence of decoded records in input order. -/
theorem C17_loader_all_or_nothing (d : Decoder) (jsonData : String) :
    (∃ r, ParsePackagesJSON d jsonData = some r) ∧
    (∀ pkgs e, ParsePackagesJSON d jsonData = some (pkgs, some e) → pkgs = []) ∧
    (∀ pkgs, ParsePackagesJSON d jsonData = some (pkgs, none) ↔
      Records d jsonData.data pkgs) := by
  have ht := decodeLoop_total d (jsonData.data.length + 1) jsonData.data []
    (Nat.lt_succ_self _)
  refine ⟨?_, ?_, ?_⟩
  · rcases ht with ⟨e, he⟩ | ⟨pkgs, -, he⟩
    · exact ⟨_, he⟩
    · exact ⟨_, he⟩
  · intro pkgs e h
    unfold ParsePackagesJSON at h
    rcases ht with ⟨e1, he⟩ | ⟨pkgs1, -, he⟩
    · rw [he] at h
      simp only [Option.some.injEq, Prod.mk.injEq] at h
      exact h.1.symm
    · rw [he] at h
      simp at h
  · intro pkgs
    constructor
    · intro h
      unfold ParsePackagesJSON at h
      rcases ht with ⟨e1, he⟩ | ⟨pkgs1, hr, he⟩
      · rw [he] at h
        simp at h
      · rw [he] at h
        simp only [List.nil_append, Option.some.injEq, Prod.mk.injEq, and_true] at h
        rw [← h]
        exact hr
    · intro h
      unfold ParsePackagesJSON
      rw [decodeLoop_of_Records d _ pkgs h _ [] (Nat.lt_succ_self _), List.nil_append]

theorem C17_loader_all_or_nothing_witness :
    ParsePackagesJSON sampleDecoder "x y" =
        some ([], some "failed to decode package: invalid character") ∧
      ([] : List Package) = [] :=
  ⟨by decide,
    (C17_loader_all_or_nothing sampleDecoder "x y").2.1 []
      "failed to decode package: invalid character" (by decide)⟩

/-- C18: empty input is valid. `ParsePackagesJSON` on the empty text returns an empty
package list and no error, and `CheckRules` over an empty package list returns no
violations for every rule list. -/
theorem C18_empty_input_valid (d : Decoder) :
    ParsePackagesJSON d "" = some ([], none) ∧
      ∀ rules : List Rule, CheckRules [] rules = [] := by
  refine ⟨rfl, ?_⟩
  intro rules
  rw [CheckRules_eq_reference]
  exact referenceAll_nil_packages rules

/-- C19: scope normalisation is idempotent, and the normalised directory always ends
with "/". -/
theorem C19_normalization_idempotent (D : String) :
    normalizeDirectory (normalizeDirectory D) = normalizeDirectory D ∧
      ∃ t : String, normalizeDirectory D = t ++ "/" :=
  ⟨normalizeDirectory_idem D, (HasSuffix_iff _ _).1 (normalizeDirectory_HasSuffix D)⟩

/-- C20: the suffix condition of the scope test is redundant. For every package
directory and every target directory, `isInDirectory` equals the test made of the
prefix condition and the substring condition alone. -/
theorem C20_suffix_condition_redundant (P T : String) :
    isInDirectory P T = isInDirectoryTwo P T := by
  have hsc : HasSuffix (normalizeDirectory P) ("/" ++ TrimSuffix T "/" ++ "/") = true →
      Contains (normalizeDirectory P) ("/" ++ TrimSuffix T "/" ++ "/") = true := by
    intro hs
    rw [Contains_iff_data]
    exact ((HasSuffix_iff_data _ _).1 hs).isInfix
  have e2 : isInDirectoryTwo P T =
      (HasPrefix (normalizeDirectory P) T ||
        Contains (normalizeDirectory P) ("/" ++ TrimSuffix T "/" ++ "/")) := rfl
  rw [isInDirectory_eq, e2]
  cases h1 : HasPrefix (normalizeDirectory P) T <;>
    cases h2 : HasSuffix (normalizeDirectory P) ("/" ++ TrimSuffix T "/" ++ "/") <;>
    cases h3 : Contains (normalizeDirectory P) ("/" ++ TrimSuffix T "/" ++ "/") <;>
    simp_all

end Godepr
